import Mathlib

set_option maxRecDepth 10000

/-!
Shallow embedding of the search-orchestration core of the vscode-livegrep
extension: the streaming stdout line parser and per-directory fan-in of
`performWebviewSearchLive`, the quick-pick line pipeline of `fetchItems`,
the `fd` command builder, and the search-history scrollback of
`searchDirs` / `searchFiles`.  Strings from the JavaScript side are
modelled as `List Char`; JavaScript numbers that can be `NaN` are
modelled as `Option Int` with `none` for `NaN`.
-/

namespace LiveGrep

/-- JavaScript whitespace as used by `String.prototype.trim` (the ASCII
whitespace characters plus no-break space; other exotic Unicode space
code points do not occur in the inputs considered here). -/
def isJsSpace (c : Char) : Bool :=
  c = ' ' || c = '\t' || c = '\n' || c = '\r' || c = '\x0b' || c = '\x0c' || c = ' '

/-- JavaScript `s.trim()`: strip leading and trailing whitespace. -/
def trimChars (s : List Char) : List Char :=
  ((s.dropWhile isJsSpace).reverse.dropWhile isJsSpace).reverse

/-- Helper for `jsSplit`: prepend a character to the first part of a split
(the list is never empty in use). -/
def consHead (c : Char) : List (List Char) → List (List Char)
  | [] => [[c]]
  | p :: ps => (c :: p) :: ps

/-- JavaScript `s.split(sep)` for a single-character separator:
`"".split(sep) = [""]`, and a trailing separator yields a trailing empty
part. -/
def jsSplit (sep : Char) : List Char → List (List Char)
  | [] => [[]]
  | c :: cs => if c = sep then [] :: jsSplit sep cs else consHead c (jsSplit sep cs)

/-- JavaScript `parts.join(sep)` for a single-character separator. -/
def joinSep (sep : Char) : List (List Char) → List Char
  | [] => []
  | [x] => x
  | x :: y :: xs => x ++ sep :: joinSep sep (y :: xs)

/-- Proof-side view of `jsSplit`: the complete (terminated) parts and the
trailing fragment after the last separator, computed in one pass. -/
def splitLines (sep : Char) : List Char → List (List Char) × List Char
  | [] => ([], [])
  | c :: cs =>
    if c = sep then ([] :: (splitLines sep cs).1, (splitLines sep cs).2)
    else
      match splitLines sep cs with
      | ([], r) => ([], c :: r)
      | (l :: ls, r) => ((c :: l) :: ls, r)

/-- Prepend a trailing fragment to a later `splitLines` result: the
fragment merges with the first complete line, or with the trailing
fragment when there is no complete line. -/
def glue (fragment : List Char) : List (List Char) × List Char → List (List Char) × List Char
  | ([], r) => ([], fragment ++ r)
  | (l :: ls, r) => ((fragment ++ l) :: ls, r)

/-- Decimal digit in the sense of the JavaScript numeric parsers. -/
def isDigitChar (c : Char) : Bool :=
  '0' ≤ c && c ≤ '9'

/-- Numeric value of a list of decimal digits, most significant first. -/
def digitsVal (ds : List Char) : Nat :=
  ds.foldl (fun a c => a * 10 + (c.toNat - 48)) 0

/-- JavaScript `parseInt(s, 10)`: skip leading whitespace, read an
optional sign and then the longest prefix of decimal digits; `NaN`
(modelled as `none`) if that prefix is empty. -/
def parseIntJs (s : List Char) : Option Int :=
  let t := s.dropWhile isJsSpace
  match t with
  | '-' :: rest =>
    let ds := rest.takeWhile isDigitChar
    if ds = [] then none else some (-(digitsVal ds : Int))
  | '+' :: rest =>
    let ds := rest.takeWhile isDigitChar
    if ds = [] then none else some ((digitsVal ds : Int))
  | _ =>
    let ds := t.takeWhile isDigitChar
    if ds = [] then none else some ((digitsVal ds : Int))

/-- JavaScript `Number(s)` restricted to the whole-number strings relevant
here: whitespace is trimmed, the empty string is `0`, an optionally
signed all-digit string is its value, and any other string is `NaN`
(modelled as `none`; fractional, exponent, hex and `Infinity` forms are
not produced by the line-number fields this is applied to). -/
def jsNumber (s : List Char) : Option Int :=
  let t := trimChars s
  if t = [] then some 0
  else
    match t with
    | '-' :: ds => if ds ≠ [] ∧ ds.all isDigitChar then some (-(digitsVal ds : Int)) else none
    | '+' :: ds => if ds ≠ [] ∧ ds.all isDigitChar then some ((digitsVal ds : Int)) else none
    | ds => if ds.all isDigitChar then some ((digitsVal ds : Int)) else none

/-- JavaScript `Number` applied to a possibly-missing field
(`Number(undefined) = NaN`). -/
def jsNumberOpt : Option (List Char) → Option Int
  | none => none
  | some s => jsNumber s

/-- JavaScript truthiness of a number: `NaN` and `0` are falsy. -/
def numTruthy : Option Int → Bool
  | none => false
  | some k => k ≠ 0

/-- A POSIX path is absolute when it starts with a slash. -/
def isAbsolute : List Char → Bool
  | '/' :: _ => true
  | _ => false

/-- One step of POSIX path normalization over path segments: empty and
`.` segments are dropped, `..` removes the previous segment (a no-op at
the root), anything else is appended. -/
def normStep (acc : List (List Char)) (seg : List Char) : List (List Char) :=
  if seg = [] ∨ seg = ['.'] then acc
  else if seg = ['.', '.'] then acc.dropLast
  else acc ++ [seg]

/-- Normalize the segments of an absolute path. -/
def normAbsSegs (segs : List (List Char)) : List (List Char) :=
  segs.foldl normStep []

/-- Node `path.posix.resolve(dir, raw)` for an absolute `dir`: if `raw`
is absolute it is normalized on its own, otherwise it is joined to `dir`
and the result is normalized. -/
def resolvePosix (dir raw : List Char) : List Char :=
  let s := if isAbsolute raw then raw else dir ++ '/' :: raw
  '/' :: joinSep '/' (normAbsSegs (jsSplit '/' s))

/-- Length of the common segment prefix of two paths. -/
def commonLen : List (List Char) → List (List Char) → Nat
  | a :: as, b :: bs => if a = b then commonLen as bs + 1 else 0
  | _, _ => 0

/-- Node `path.posix.relative(from, to)` for absolute `from` and `to`:
resolve both, strip the common segment prefix, then go up with `..` for
each remaining `from` segment and down the remaining `to` segments. -/
def relativePosix (fr tgt : List Char) : List Char :=
  let fs := normAbsSegs (jsSplit '/' fr)
  let ts := normAbsSegs (jsSplit '/' tgt)
  let k := commonLen fs ts
  joinSep '/' (List.replicate (fs.length - k) ['.', '.'] ++ ts.drop k)

/-- Node `path.posix.basename`: strip trailing slashes, then keep what
follows the last remaining slash. -/
def basenamePosix (p : List Char) : List Char :=
  ((p.reverse.dropWhile (· = '/')).takeWhile (· ≠ '/')).reverse

/-- The content-length cap shared by all snapshots of the extension. -/
def MAX_DESC_LENGTH : Nat := 1000

/-- A parsed content-search record (`SearchResult` in the source).
`lineNumber` is the JavaScript number produced by `parseInt`, so `none`
models `NaN`. -/
structure SearchResult where
  filePath : List Char
  fileName : List Char
  lineNumber : Option Int
  content : List Char
  relativePath : List Char
deriving DecidableEq

/-- The per-line body of the stdout data handler of
`performWebviewSearchLive`: skip blank lines, split on `:`, destructure
into `fullPath`, `lineNum` and the remaining content parts, skip the line
when `fullPath` or `lineNum` is empty or missing, rejoin and trim the
content, skip the line when the content exceeds `MAX_DESC_LENGTH`, and
otherwise build the `SearchResult`. -/
def parseDataLine (dir line : List Char) : Option SearchResult :=
  if trimChars line = [] then none
  else
    let parts := jsSplit ':' line
    let fullPath := parts.headD []
    match (parts.drop 1).head? with
    | none => none
    | some lineNum =>
      if fullPath = [] ∨ lineNum = [] then none
      else
        let content := trimChars (joinSep ':' (parts.drop 2))
        if MAX_DESC_LENGTH < content.length then none
        else
          some { filePath := resolvePosix dir fullPath
                 fileName := basenamePosix fullPath
                 lineNumber := parseIntJs lineNum
                 content := content
                 relativePath := relativePosix dir (resolvePosix dir fullPath) }

/-- The close handler of `performWebviewSearchLive`: if the remaining
buffer is non-blank, trim it and process it as one final line (with the
same field checks, and the content kept when its length is at most
`MAX_DESC_LENGTH`). -/
def closeFlush (dir buffer : List Char) : List SearchResult :=
  if trimChars buffer = [] then []
  else
    let line := trimChars buffer
    let parts := jsSplit ':' line
    let fullPath := parts.headD []
    match (parts.drop 1).head? with
    | none => []
    | some lineNum =>
      if fullPath = [] ∨ lineNum = [] then []
      else
        let content := trimChars (joinSep ':' (parts.drop 2))
        if content.length ≤ MAX_DESC_LENGTH then
          [{ filePath := resolvePosix dir fullPath
             fileName := basenamePosix fullPath
             lineNumber := parseIntJs lineNum
             content := content
             relativePath := relativePosix dir (resolvePosix dir fullPath) }]
        else []

/-- One stdout data event: append the chunk to the buffer, split on
newlines, keep the last (unterminated) part as the new buffer and return
the complete lines. -/
def chunkStep (buffer chunk : List Char) : List (List Char) × List Char :=
  let lines := jsSplit '\n' (buffer ++ chunk)
  (lines.dropLast, lines.getLastD [])

/-- Feed a sequence of stdout chunks through the data handler, returning
all complete lines in order together with the final buffer contents. -/
def feedChunks (buffer : List Char) : List (List Char) → List (List Char) × List Char
  | [] => ([], buffer)
  | c :: cs =>
    let s := chunkStep buffer c
    let r := feedChunks s.2 cs
    (s.1 ++ r.1, r.2)

/-- Concatenation of a list of chunks into the full stdout stream. -/
def concatChunks (cs : List (List Char)) : List Char :=
  cs.foldr (· ++ ·) []

/-- The complete streaming parse of one directory scan: every complete
line goes through the data-handler parser as it arrives, and on close the
remaining buffer is flushed as one final line. -/
def scanEmits (dir : List Char) (chunks : List (List Char)) : List SearchResult :=
  let fed := feedChunks [] chunks
  fed.1.filterMap (parseDataLine dir) ++ closeFlush dir fed.2

/-- Events observed by one in-flight `performWebviewSearchLive` call:
a parsed result arriving from the scan of directory index `d`, or the
terminal event of that scan (`ok = true` for the close handler,
`ok = false` for the error handler or a spawn failure, which the code
treats identically). -/
inductive WEvent where
  | res (d : Nat) (r : SearchResult)
  | term (d : Nat) (ok : Bool)
deriving DecidableEq

/-- Events delivered to the result sink by `performWebviewSearchLive`. -/
inductive OutEvent where
  | outRes (d : Nat) (r : SearchResult)
  | complete
deriving DecidableEq

/-- The shared-counter fan-in of `performWebviewSearchLive`: every result
is forwarded immediately; every terminal event decrements `processCount`
(regardless of success or failure) and `onComplete` fires exactly when
the counter reaches zero. -/
def runFanIn (c : Int) : List WEvent → List OutEvent
  | [] => []
  | WEvent.res d r :: es => OutEvent.outRes d r :: runFanIn c es
  | WEvent.term _ _ :: es => (if c - 1 = 0 then [OutEvent.complete] else []) ++ runFanIn (c - 1) es

/-- `performWebviewSearchLive` at the orchestration level: an empty or
whitespace-only query completes immediately with no directory spawned;
otherwise one scan per directory is spawned and the fan-in counter starts
at the number of directories.  The first component is the list of
directories for which a process is spawned, the second the sink-visible
output for a given sequence of scan events. -/
def performWebviewSearchLive (query : List Char) (dirs : List (List Char))
    (events : List WEvent) : List (List Char) × List OutEvent :=
  if trimChars query = [] then ([], [OutEvent.complete])
  else (dirs, runFanIn (dirs.length : Int) events)

/-- Number of terminal events in a scan-event sequence. -/
def termCount (events : List WEvent) : Nat :=
  events.countP (fun e => match e with | WEvent.term _ _ => true | _ => false)

/-- Number of completion events in a sink-output sequence. -/
def completions (out : List OutEvent) : Nat :=
  out.countP (fun e => match e with | OutEvent.complete => true | _ => false)

/-- The result events of a sink-output sequence, in order. -/
def resultsOfOut (out : List OutEvent) : List (Nat × SearchResult) :=
  out.filterMap (fun e => match e with | OutEvent.outRes d r => some (d, r) | _ => none)

/-- The result events of a scan-event sequence, in order. -/
def resultsOfIn (events : List WEvent) : List (Nat × SearchResult) :=
  events.filterMap (fun e => match e with | WEvent.res d r => some (d, r) | _ => none)

/-- Messages reaching the webview panel's coordination layer: a `search`
message from the input box (superseding any earlier search), a result
parsed by the scan of an earlier request `req`, or the terminal event of
one of request `req`'s scans. -/
inductive PanelEvent where
  | searchMsg (query : List Char)
  | scanRes (req : Nat) (r : SearchResult)
  | scanTerm (req : Nat)
deriving DecidableEq

/-- Events posted to the webview (the result sink).  The request index
recorded on a result or completion identifies the search that produced
it; the code itself carries no such tag and forwards unconditionally. -/
inductive SinkEvent where
  | clearResults
  | addResult (req : Nat) (r : SearchResult)
  | searchComplete (req : Nat)
deriving DecidableEq

/-- One step of the panel's `search` message handler, translated from the
code: a `search` message posts `clearResults` and starts a new
`performWebviewSearchLive` with a fresh `processCount` (posting an
immediate completion for a blank query); a scan result of any started
request is forwarded by that request's `onResult` closure with no
generation or staleness check; a scan terminal event decrements that
request's own counter and posts completion when it reaches zero.  The
state is the list of per-request `processCount` values; `n` is the number
of search directories. -/
def panelStep (n : Nat) (counts : List Int) : PanelEvent → List Int × List SinkEvent
  | PanelEvent.searchMsg q =>
    if trimChars q = [] then
      (counts ++ [Int.ofNat n], [SinkEvent.clearResults, SinkEvent.searchComplete counts.length])
    else
      (counts ++ [Int.ofNat n], [SinkEvent.clearResults])
  | PanelEvent.scanRes req r =>
    (counts, if req < counts.length then [SinkEvent.addResult req r] else [])
  | PanelEvent.scanTerm req =>
    let c := counts.getD req 0 - 1
    (counts.set req c,
      if req < counts.length ∧ c = 0 then [SinkEvent.searchComplete req] else [])

/-- Run the panel machine from a given state, collecting the final state
and the concatenated sink log. -/
def runPanelAux (n : Nat) (counts : List Int) : List PanelEvent → List Int × List SinkEvent
  | [] => (counts, [])
  | e :: es =>
    let s := panelStep n counts e
    let r := runPanelAux n s.1 es
    (r.1, s.2 ++ r.2)

/-- The sink log produced by a sequence of panel events from a fresh
panel. -/
def sinkLog (n : Nat) (events : List PanelEvent) : List SinkEvent :=
  (runPanelAux n [] events).2

/-- Number of search requests started by a sequence of panel events. -/
def startedCount (n : Nat) (events : List PanelEvent) : Nat :=
  (runPanelAux n [] events).1.length

/-- An item of the quick-pick list built by `fetchItems` (the label is
the basename-with-line display string, `detail` the reconstructed
absolute path). -/
structure FetchedItem where
  label : List Char
  description : List Char
  detail : List Char
  num : Option Int
deriving DecidableEq

/-- The per-line pipeline of `fetchItems` in grepSearch.ts: split on `:`,
take the path and `Number(second field)`, rejoin and trim the rest as the
description, and keep the line only when the description is strictly
shorter than `MAX_DESC_LENGTH` and the number is truthy (so `NaN` and `0`
are dropped).  Kept lines become quick-pick items. -/
def fetchItemLine (dir line : List Char) : Option FetchedItem :=
  let parts := jsSplit ':' line
  let fullPath := parts.headD []
  let num := jsNumberOpt ((parts.drop 1).head?)
  let description := trimChars (joinSep ':' (parts.drop 2))
  if description.length < MAX_DESC_LENGTH ∧ numTruthy num then
    some { label := (jsSplit '/' fullPath).getLastD [] ++ (" : ".toList) ++
             (toString ((num.getD 0))).toList
           description := description
           detail := dir ++ fullPath.drop 1
           num := num }
  else none

/-- The whole `fetchItems` parse of one directory's stdout: split into
lines, drop empty lines, and run each through the per-line pipeline. -/
def fetchItems (dir stdout : List Char) : List FetchedItem :=
  ((jsSplit '\n' stdout).filter (· ≠ [])).filterMap (fetchItemLine dir)

/-- The `/[A-Z]/.test` helper of grepSearch.ts. -/
def hasUpperCase (str : String) : Bool :=
  str.toList.any (fun c => 'A' ≤ c && c ≤ 'Z')

/-- `buildFdCommand` from grepSearch.ts: the case-insensitivity flag when
the term has no uppercase letter, the fixed default flags, then the
search pattern, all prefixed by the `fd` executable path. -/
def buildFdCommand (fdPath searchTerm : String) : List String :=
  let args : List String := []
  let args := if !hasUpperCase searchTerm then args ++ ["--ignore-case"] else args
  let args := args ++ ["--type", "f", "--hidden", "--follow", "--color", "never", "--absolute-path"]
  let args := args ++ [searchTerm]
  fdPath :: args

/-- A quick-pick item of the text-search scrollback history. -/
structure QuickPickItemWithLine where
  label : String
  description : String
  num : Int
deriving DecidableEq

/-- A quick-pick item of the file-search scrollback history. -/
structure QuickPickItemFile where
  label : String
  description : String
  filePath : String
deriving DecidableEq

/-- The scrollback update of `searchDirs.onDidAccept`: accepting a
history item only copies it into the input; accepting a search result
first evicts the oldest entry when the list already holds more than 20
items and then prepends a fresh history entry. -/
def scrollbackAccept (scrollBack : List QuickPickItemWithLine) (quickPickValue : String)
    (item : QuickPickItemWithLine) : List QuickPickItemWithLine :=
  if item.description = "History" then scrollBack
  else
    let sb := if scrollBack.length > 20 then scrollBack.dropLast else scrollBack
    { label := quickPickValue, description := "History", num := 0 } :: sb

/-- The identical scrollback update of `searchFiles.onDidAccept`. -/
def fileScrollbackAccept (fileScrollBack : List QuickPickItemFile) (quickPickValue : String)
    (item : QuickPickItemFile) : List QuickPickItemFile :=
  if item.description = "History" then fileScrollBack
  else
    let sb := if fileScrollBack.length > 20 then fileScrollBack.dropLast else fileScrollBack
    { label := quickPickValue, description := "History", filePath := "" } :: sb

/-- Folding a sequence of accepted selections through the text-search
scrollback update. -/
def scrollbackFold (sb : List QuickPickItemWithLine)
    (accepts : List (String × QuickPickItemWithLine)) : List QuickPickItemWithLine :=
  accepts.foldl (fun acc p => scrollbackAccept acc p.1 p.2) sb

/-- Folding a sequence of accepted selections through the file-search
scrollback update. -/
def fileScrollbackFold (sb : List QuickPickItemFile)
    (accepts : List (String × QuickPickItemFile)) : List QuickPickItemFile :=
  accepts.foldl (fun acc p => fileScrollbackAccept acc p.1 p.2) sb

/-! ### Lemmas about splitting -/

theorem jsSplit_ne_nil (sep : Char) (s : List Char) : jsSplit sep s ≠ [] := by
  induction s with
  | nil => simp [jsSplit]
  | cons c cs ih =>
    by_cases hc : c = sep
    · simp [jsSplit, hc]
    · simp only [jsSplit, if_neg hc]
      cases h : jsSplit sep cs with
      | nil => exact absurd h ih
      | cons p ps => simp [consHead]

theorem jsSplit_eq_splitLines (sep : Char) (s : List Char) :
    jsSplit sep s = (splitLines sep s).1 ++ [(splitLines sep s).2] := by
  induction s with
  | nil => simp [jsSplit, splitLines]
  | cons c cs ih =>
    by_cases hc : c = sep
    · simp [jsSplit, splitLines, hc, ih]
    · rcases h : splitLines sep cs with ⟨L, R⟩
      cases L with
      | nil =>
        simp only [jsSplit, splitLines, if_neg hc, h, ih]
        simp [consHead]
      | cons l ls =>
        simp only [jsSplit, splitLines, if_neg hc, h, ih]
        simp [consHead]

theorem chunkStep_eq (buffer chunk : List Char) :
    chunkStep buffer chunk = splitLines '\n' (buffer ++ chunk) := by
  unfold chunkStep
  rw [jsSplit_eq_splitLines]
  simp

theorem splitLines_of_not_mem {sep : Char} {s : List Char} (h : sep ∉ s) :
    splitLines sep s = ([], s) := by
  induction s with
  | nil => simp [splitLines]
  | cons c cs ih =>
    have hc : c ≠ sep := fun he => h (he ▸ List.mem_cons_self c cs)
    have hcs : sep ∉ cs := fun hm => h (List.mem_cons_of_mem c hm)
    simp [splitLines, ih hcs, hc]

theorem splitLines_snd_not_mem (sep : Char) (s : List Char) :
    sep ∉ (splitLines sep s).2 := by
  induction s with
  | nil => simp [splitLines]
  | cons c cs ih =>
    by_cases hc : c = sep
    · simpa [splitLines, hc] using ih
    · rcases h : splitLines sep cs with ⟨L, R⟩
      rw [h] at ih
      cases L with
      | nil =>
        simp only [splitLines, if_neg hc, h]
        intro hm
        rcases List.mem_cons.mp hm with h1 | h2
        · exact hc h1.symm
        · exact ih h2
      | cons l ls => simpa [splitLines, if_neg hc, h] using ih

theorem splitLines_append (sep : Char) (a b : List Char) :
    splitLines sep (a ++ b) =
      ((splitLines sep a).1 ++ (glue (splitLines sep a).2 (splitLines sep b)).1,
        (glue (splitLines sep a).2 (splitLines sep b)).2) := by
  induction a with
  | nil =>
    rcases h : splitLines sep b with ⟨L, R⟩
    cases L <;> simp [splitLines, glue, h]
  | cons c a' ih =>
    rcases hA : splitLines sep a' with ⟨A1, A2⟩
    rcases hB : splitLines sep b with ⟨B1, B2⟩
    rw [hA, hB] at ih
    by_cases hc : c = sep
    · cases B1 with
      | nil =>
        simp only [List.cons_append, splitLines, if_pos hc, hA, hB, glue, List.append_eq]
        rw [ih]
        simp [glue]
      | cons lb lbs =>
        simp only [List.cons_append, splitLines, if_pos hc, hA, hB, glue, List.append_eq]
        rw [ih]
        simp [glue]
    · cases A1 with
      | nil =>
        cases B1 with
        | nil =>
          simp only [List.cons_append, splitLines, if_neg hc, hA, hB, glue, List.append_eq]
          rw [ih]
          simp [glue]
        | cons lb lbs =>
          simp only [List.cons_append, splitLines, if_neg hc, hA, hB, glue, List.append_eq]
          rw [ih]
          simp [glue]
      | cons l ls =>
        cases B1 with
        | nil =>
          simp only [List.cons_append, splitLines, if_neg hc, hA, hB, glue, List.append_eq]
          rw [ih]
          simp [glue]
        | cons lb lbs =>
          simp only [List.cons_append, splitLines, if_neg hc, hA, hB, glue, List.append_eq]
          rw [ih]
          simp [glue]

theorem feedChunks_eq : ∀ (cs : List (List Char)) (buffer : List Char),
    '\n' ∉ buffer →
    feedChunks buffer cs = splitLines '\n' (buffer ++ concatChunks cs) := by
  intro cs
  induction cs with
  | nil =>
    intro buffer hb
    simp [feedChunks, concatChunks, splitLines_of_not_mem hb]
  | cons c cs ih =>
    intro buffer hb
    have hstep : chunkStep buffer c = splitLines '\n' (buffer ++ c) := chunkStep_eq buffer c
    have hfree : '\n' ∉ (splitLines '\n' (buffer ++ c)).2 := splitLines_snd_not_mem _ _
    have hcc : concatChunks (c :: cs) = c ++ concatChunks cs := rfl
    have h3 : splitLines '\n' ((splitLines '\n' (buffer ++ c)).2 ++ concatChunks cs)
        = glue (splitLines '\n' (buffer ++ c)).2 (splitLines '\n' (concatChunks cs)) := by
      rw [splitLines_append '\n' (splitLines '\n' (buffer ++ c)).2 (concatChunks cs),
        splitLines_of_not_mem hfree]
      simp
    simp only [feedChunks, hstep, ih _ hfree, hcc, h3]
    rw [show buffer ++ (c ++ concatChunks cs) = (buffer ++ c) ++ concatChunks cs by
      simp [List.append_assoc]]
    rw [splitLines_append '\n' (buffer ++ c) (concatChunks cs)]

/-- C1: for every stdout character stream and every way of splitting it
into chunks (including mid-line splits), the streaming parse of
`performWebviewSearchLive` — buffering chunks, extracting every complete
line per data event, and flushing a non-blank final buffer on close —
emits exactly the same sequence of parsed `SearchResult` records as
parsing the entire stream delivered as one single chunk. -/
theorem scanEmits_chunk_invariant (dir : List Char) (chunks : List (List Char)) :
    scanEmits dir chunks = scanEmits dir [concatChunks chunks] := by
  unfold scanEmits
  have h1 : feedChunks [] chunks = splitLines '\n' (concatChunks chunks) := by
    simpa using feedChunks_eq chunks [] (by simp)
  have h2 : feedChunks [] [concatChunks chunks] = splitLines '\n' (concatChunks chunks) := by
    have := feedChunks_eq [concatChunks chunks] [] (by simp)
    simpa [concatChunks] using this
  rw [h1, h2]

/-! ### Fan-in of `performWebviewSearchLive` -/

theorem completions_runFanIn : ∀ (es : List WEvent) (c : Int),
    completions (runFanIn c es) = if 1 ≤ c ∧ c ≤ (termCount es : Int) then 1 else 0
  | [], c => by
    have h : ¬(1 ≤ c ∧ c ≤ ((termCount ([] : List WEvent)) : Int)) := by
      simp only [termCount, List.countP_nil]
      omega
    simp [runFanIn, completions, h]
  | WEvent.res d r :: es, c => by
    have ih := completions_runFanIn es c
    have h1 : completions (runFanIn c (WEvent.res d r :: es))
        = completions (runFanIn c es) := by
      simp [runFanIn, completions]
    have h2 : termCount (WEvent.res d r :: es) = termCount es := by
      simp [termCount, List.countP_cons]
    rw [h1, h2, ih]
  | WEvent.term d ok :: es, c => by
    have ih := completions_runFanIn es (c - 1)
    have h1 : completions (runFanIn c (WEvent.term d ok :: es))
        = (if c - 1 = 0 then 1 else 0) + completions (runFanIn (c - 1) es) := by
      by_cases hc : c - 1 = 0 <;> simp [runFanIn, completions, hc, Nat.add_comm]
    have h2 : ((termCount (WEvent.term d ok :: es)) : Int) = (termCount es : Int) + 1 := by
      simp [termCount, List.countP_cons]
    rw [h1, ih, h2]
    split_ifs <;> omega

theorem resultsOf_runFanIn : ∀ (es : List WEvent) (c : Int),
    resultsOfOut (runFanIn c es) = resultsOfIn es
  | [], c => by simp [runFanIn, resultsOfOut, resultsOfIn]
  | WEvent.res d r :: es, c => by
    have ih := resultsOf_runFanIn es c
    simp only [runFanIn, resultsOfOut, resultsOfIn, List.filterMap_cons] at *
    simpa using ih
  | WEvent.term d ok :: es, c => by
    have ih := resultsOf_runFanIn es (c - 1)
    have h1 : resultsOfOut (runFanIn c (WEvent.term d ok :: es))
        = resultsOfOut (runFanIn (c - 1) es) := by
      by_cases hc : c - 1 = 0 <;> simp [runFanIn, resultsOfOut, hc]
    have h2 : resultsOfIn (WEvent.term d ok :: es) = resultsOfIn es := by
      simp [resultsOfIn, List.filterMap_cons]
    rw [h1, h2, ih]

theorem termCount_take_le (es : List WEvent) (k : Nat) : termCount (es.take k) ≤ termCount es := by
  unfold termCount
  exact (List.take_sublist k es).countP_le _

/-- C3 counterexample: with a non-blank query but an empty directory list
(`N = 0`), `performWebviewSearchLive` spawns no scan and its
`processCount` counter, already zero, is never decremented, so the
`if (processCount === 0) onComplete()` check never runs: the completion
event is emitted zero times even though every (vacuously, none) directory
scan has reached a terminal state, contradicting the claim that the
aggregate completion is emitted exactly once for every request. -/
theorem fanin_zero_dirs_no_completion :
    (performWebviewSearchLive ("foo".toList) ([] : List (List Char)) []).2 = []
    ∧ completions (performWebviewSearchLive ("foo".toList) ([] : List (List Char)) []).2 = 0 :=
  ⟨rfl, rfl⟩

/-- C3 (amended to requests over at least one directory): for every
search over a non-empty directory list and every arrival order of scan
events in which each of the `N` directories produces exactly one terminal
event (successful close or failure), the completion event is emitted
exactly once, it has been emitted after the first `k` events exactly when
all `N` terminal events are among them, and every result event — also
those of directories that are siblings of a failed one — is forwarded to
the sink unchanged and in order. -/
theorem fanin_completion_once (query : List Char) (dirs : List (List Char))
    (events : List WEvent) (hq : trimChars query ≠ []) (hd : dirs ≠ [])
    (ht : termCount events = dirs.length) :
    completions (performWebviewSearchLive query dirs events).2 = 1
    ∧ (∀ k : Nat, completions (performWebviewSearchLive query dirs (events.take k)).2 = 1
        ↔ termCount (events.take k) = dirs.length)
    ∧ resultsOfOut (performWebviewSearchLive query dirs events).2 = resultsOfIn events := by
  have hlen : 1 ≤ dirs.length := by
    cases dirs with
    | nil => exact absurd rfl hd
    | cons a as => simp
  simp only [performWebviewSearchLive, if_neg hq]
  refine ⟨?_, ?_, ?_⟩
  · rw [completions_runFanIn]
    rw [if_pos]
    constructor
    · exact_mod_cast hlen
    · rw [ht]
  · intro k
    rw [completions_runFanIn]
    have hle : termCount (events.take k) ≤ dirs.length := ht ▸ termCount_take_le events k
    split_ifs with hcond
    · constructor
      · intro _
        obtain ⟨hc1, hc2⟩ := hcond
        have h3 : dirs.length ≤ termCount (events.take k) := by exact_mod_cast hc2
        omega
      · intro _
        rfl
    · constructor
      · intro h10
        exact absurd h10 (by simp)
      · intro heq
        exfalso
        apply hcond
        refine ⟨by exact_mod_cast hlen, ?_⟩
        have h3 : dirs.length ≤ termCount (events.take k) := le_of_eq heq.symm
        exact_mod_cast h3
  · exact resultsOf_runFanIn events _

/-- Witness for C3's amended theorem at a concrete two-directory search
in which the second directory's scan fails after the first delivers one
result and closes. -/
theorem fanin_completion_once_witness :
    completions (performWebviewSearchLive ("foo".toList) [("/a".toList), ("/b".toList)]
      [WEvent.res 0 ⟨"/a/x.txt".toList, "x.txt".toList, some 3, "foo bar".toList, "x.txt".toList⟩,
        WEvent.term 0 true, WEvent.term 1 false]).2 = 1
    ∧ resultsOfOut (performWebviewSearchLive ("foo".toList) [("/a".toList), ("/b".toList)]
      [WEvent.res 0 ⟨"/a/x.txt".toList, "x.txt".toList, some 3, "foo bar".toList, "x.txt".toList⟩,
        WEvent.term 0 true, WEvent.term 1 false]).2 =
      [(0, ⟨"/a/x.txt".toList, "x.txt".toList, some 3, "foo bar".toList, "x.txt".toList⟩)] := by
  have h := fanin_completion_once ("foo".toList) [("/a".toList), ("/b".toList)]
    [WEvent.res 0 ⟨"/a/x.txt".toList, "x.txt".toList, some 3, "foo bar".toList, "x.txt".toList⟩,
      WEvent.term 0 true, WEvent.term 1 false]
    (by decide) (by decide) (by decide)
  exact ⟨h.1, h.2.2.trans (by decide)⟩

/-! ### The panel message handler -/

theorem runPanelAux_append (n : Nat) (counts : List Int) (a b : List PanelEvent) :
    runPanelAux n counts (a ++ b) =
      ((runPanelAux n (runPanelAux n counts a).1 b).1,
        (runPanelAux n counts a).2 ++ (runPanelAux n (runPanelAux n counts a).1 b).2) := by
  induction a generalizing counts with
  | nil => simp [runPanelAux]
  | cons e a ih =>
    simp only [List.cons_append, runPanelAux]
    simp [ih, List.append_assoc]

/-- C2 counterexample: a first search is started, then superseded by a
second `search` message; afterwards a result and the final close of the
first search's scan still arrive.  The handler has no generation token
and never terminates old processes, so the sink receives the superseded
request's `addResult` and `searchComplete` events after the supersession
point (the second `clearResults`), contradicting the claim that no stale
event reaches the Result Sink. -/
theorem webview_stale_result_forwarded_cex :
    sinkLog 1 [PanelEvent.searchMsg ("q1".toList), PanelEvent.searchMsg ("q2".toList),
        PanelEvent.scanRes 0 ⟨"/a/x.txt".toList, "x.txt".toList, some 3, "q1 hit".toList,
          "x.txt".toList⟩, PanelEvent.scanTerm 0]
      = [SinkEvent.clearResults, SinkEvent.clearResults,
          SinkEvent.addResult 0 ⟨"/a/x.txt".toList, "x.txt".toList, some 3, "q1 hit".toList,
            "x.txt".toList⟩, SinkEvent.searchComplete 0]
    ∧ sinkLog 1 [PanelEvent.searchMsg ("q1".toList), PanelEvent.searchMsg ("q2".toList)]
      = [SinkEvent.clearResults, SinkEvent.clearResults] :=
  ⟨rfl, rfl⟩

/-- C2 (amended): the search message handler performs no supersession
gating at all — there is no generation token, superseded requests'
processes are not terminated, and a result or terminal event of any
already-started request is forwarded to the Result Sink exactly as for
the current request, no matter how many newer searches have been started
in the meantime. -/
theorem webview_no_generation_gating (n : Nat) (pre : List PanelEvent) (req : Nat)
    (r : SearchResult) (h : req < startedCount n pre) :
    sinkLog n (pre ++ [PanelEvent.scanRes req r])
      = sinkLog n pre ++ [SinkEvent.addResult req r]
    ∧ ((runPanelAux n [] pre).1.getD req 0 = 1 →
        sinkLog n (pre ++ [PanelEvent.scanTerm req])
          = sinkLog n pre ++ [SinkEvent.searchComplete req]) := by
  constructor
  · unfold sinkLog
    rw [runPanelAux_append]
    simp only [runPanelAux, panelStep]
    rw [if_pos (by exact h)]
    simp
  · intro hc
    unfold sinkLog
    rw [runPanelAux_append]
    simp only [runPanelAux, panelStep, hc]
    rw [if_pos ⟨h, by omega⟩]
    simp

/-- Witness for C2's amended theorem: after two searches have started,
the first (superseded) search's result and final terminal event are both
still forwarded to the sink. -/
theorem webview_no_generation_gating_witness :
    sinkLog 1 [PanelEvent.searchMsg ("a".toList), PanelEvent.searchMsg ("b".toList),
        PanelEvent.scanRes 0 ⟨"/a/y.txt".toList, "y.txt".toList, some 7, "stale".toList,
          "y.txt".toList⟩]
      = sinkLog 1 [PanelEvent.searchMsg ("a".toList), PanelEvent.searchMsg ("b".toList)]
        ++ [SinkEvent.addResult 0 ⟨"/a/y.txt".toList, "y.txt".toList, some 7, "stale".toList,
          "y.txt".toList⟩]
    ∧ sinkLog 1 [PanelEvent.searchMsg ("a".toList), PanelEvent.searchMsg ("b".toList),
        PanelEvent.scanTerm 0]
      = sinkLog 1 [PanelEvent.searchMsg ("a".toList), PanelEvent.searchMsg ("b".toList)]
        ++ [SinkEvent.searchComplete 0] := by
  have h := webview_no_generation_gating 1
    [PanelEvent.searchMsg ("a".toList), PanelEvent.searchMsg ("b".toList)] 0
    ⟨"/a/y.txt".toList, "y.txt".toList, some 7, "stale".toList, "y.txt".toList⟩
    (by decide)
  exact ⟨h.1, h.2 (by decide)⟩

/-! ### Empty-query short circuit -/

/-- C7: an empty or whitespace-only query short-circuits: the completion
callback fires immediately, no search process is spawned for any
directory (the spawned-directory list is empty), and no result event is
produced, whatever directories or scan events there might have been. -/
theorem empty_query_short_circuit (query : List Char) (dirs : List (List Char))
    (events : List WEvent) (h : ∀ c ∈ query, isJsSpace c = true) :
    performWebviewSearchLive query dirs events = ([], [OutEvent.complete]) := by
  have ht : trimChars query = [] := by
    unfold trimChars
    have h1 : query.dropWhile isJsSpace = [] := List.dropWhile_eq_nil_iff.mpr h
    simp [h1]
  simp [performWebviewSearchLive, ht]

/-- Witness for C7 at the one-space query over one directory. -/
theorem empty_query_short_circuit_witness :
    performWebviewSearchLive (" ".toList) [("/a".toList)]
      [WEvent.term 0 true] = ([], [OutEvent.complete]) :=
  empty_query_short_circuit (" ".toList) [("/a".toList)] [WEvent.term 0 true] (by decide)

/-! ### The fd command builder -/

/-- C9: for every file-search term, the constructed command vector is
exactly the `fd` path, then `--ignore-case` precisely when the term
contains no uppercase letter, then the fixed flags
`--type f --hidden --follow --color never --absolute-path`, and finally
the term itself as the pattern. -/
theorem buildFdCommand_spec (fdPath searchTerm : String) :
    buildFdCommand fdPath searchTerm =
      [fdPath]
        ++ (if ∃ c ∈ searchTerm.toList, 'A' ≤ c ∧ c ≤ 'Z' then [] else ["--ignore-case"])
        ++ ["--type", "f", "--hidden", "--follow", "--color", "never", "--absolute-path"]
        ++ [searchTerm] := by
  by_cases h : ∃ c ∈ searchTerm.toList, 'A' ≤ c ∧ c ≤ 'Z'
  · have hb : hasUpperCase searchTerm = true := by
      unfold hasUpperCase
      rw [List.any_eq_true]
      obtain ⟨c, hc, h1, h2⟩ := h
      exact ⟨c, hc, by simp [h1, h2]⟩
    rw [if_pos h]
    simp [buildFdCommand, hb]
  · have hb : hasUpperCase searchTerm = false := by
      unfold hasUpperCase
      rw [List.any_eq_false]
      intro c hc
      simp only [Bool.and_eq_true, decide_eq_true_eq, not_and]
      intro h1 h2
      exact h ⟨c, hc, h1, h2⟩
    rw [if_neg h]
    simp [buildFdCommand, hb]

/-! ### The scrollback history -/

theorem scrollbackAccept_length_le (sb : List QuickPickItemWithLine) (v : String)
    (item : QuickPickItemWithLine) (h : sb.length ≤ 21) :
    (scrollbackAccept sb v item).length ≤ 21 := by
  unfold scrollbackAccept
  split_ifs with h1 h2
  · exact h
  · simp only [List.length_cons, List.length_dropLast]
    omega
  · simp only [List.length_cons]
    omega

theorem fileScrollbackAccept_length_le (sb : List QuickPickItemFile) (v : String)
    (item : QuickPickItemFile) (h : sb.length ≤ 21) :
    (fileScrollbackAccept sb v item).length ≤ 21 := by
  unfold fileScrollbackAccept
  split_ifs with h1 h2
  · exact h
  · simp only [List.length_cons, List.length_dropLast]
    omega
  · simp only [List.length_cons]
    omega

theorem scrollbackFold_length_le (accepts : List (String × QuickPickItemWithLine)) :
    ∀ sb : List QuickPickItemWithLine, sb.length ≤ 21 →
      (scrollbackFold sb accepts).length ≤ 21 := by
  induction accepts with
  | nil => intro sb h; simpa [scrollbackFold] using h
  | cons p ps ih =>
    intro sb h
    have h1 : scrollbackFold sb (p :: ps) = scrollbackFold (scrollbackAccept sb p.1 p.2) ps := rfl
    rw [h1]
    exact ih _ (scrollbackAccept_length_le sb p.1 p.2 h)

theorem fileScrollbackFold_length_le (accepts : List (String × QuickPickItemFile)) :
    ∀ sb : List QuickPickItemFile, sb.length ≤ 21 →
      (fileScrollbackFold sb accepts).length ≤ 21 := by
  induction accepts with
  | nil => intro sb h; simpa [fileScrollbackFold] using h
  | cons p ps ih =>
    intro sb h
    have h1 : fileScrollbackFold sb (p :: ps)
        = fileScrollbackFold (fileScrollbackAccept sb p.1 p.2) ps := rfl
    rw [h1]
    exact ih _ (fileScrollbackAccept_length_le sb p.1 p.2 h)

/-- C10: in both the text-search and the file-search scrollback, an
accepted non-history selection prepends exactly one fresh history entry
at the front (newest first), after first evicting the last (oldest) entry
when the list already holds more than 20 entries; consequently, starting
from the empty history, the list length never exceeds 21 across any
sequence of accepted selections. -/
theorem scrollback_invariant
    (sb : List QuickPickItemWithLine) (v : String) (item : QuickPickItemWithLine)
    (fsb : List QuickPickItemFile) (fv : String) (fitem : QuickPickItemFile)
    (accepts : List (String × QuickPickItemWithLine))
    (faccepts : List (String × QuickPickItemFile))
    (hitem : item.description ≠ "History") (hlen : sb.length ≤ 21)
    (hfitem : fitem.description ≠ "History") (hflen : fsb.length ≤ 21) :
    scrollbackAccept sb v item
      = { label := v, description := "History", num := 0 }
          :: (if sb.length > 20 then sb.dropLast else sb)
    ∧ (scrollbackAccept sb v item).length ≤ 21
    ∧ (scrollbackFold [] accepts).length ≤ 21
    ∧ fileScrollbackAccept fsb fv fitem
      = { label := fv, description := "History", filePath := "" }
          :: (if fsb.length > 20 then fsb.dropLast else fsb)
    ∧ (fileScrollbackAccept fsb fv fitem).length ≤ 21
    ∧ (fileScrollbackFold [] faccepts).length ≤ 21 := by
  refine ⟨?_, scrollbackAccept_length_le sb v item hlen,
    scrollbackFold_length_le accepts [] (by simp),
    ?_, fileScrollbackAccept_length_le fsb fv fitem hflen,
    fileScrollbackFold_length_le faccepts [] (by simp)⟩
  · unfold scrollbackAccept
    rw [if_neg hitem]
  · unfold fileScrollbackAccept
    rw [if_neg hfitem]

/-- Witness for C10 at concrete selections: a first accept on the empty
text-search history, a two-accept fold, and a first accept on the empty
file-search history. -/
theorem scrollback_invariant_witness :
    scrollbackAccept [] "q" ⟨"lbl", "desc", 3⟩ = [⟨"q", "History", 0⟩]
    ∧ (scrollbackFold [] [("a", ⟨"a", "r", 1⟩), ("b", ⟨"b", "r", 2⟩)]).length ≤ 21
    ∧ fileScrollbackAccept [] "p" ⟨"lbl", "desc", "/f"⟩ = [⟨"p", "History", ""⟩] := by
  have h := scrollback_invariant [] "q" ⟨"lbl", "desc", 3⟩ [] "p" ⟨"lbl", "desc", "/f"⟩
    [("a", ⟨"a", "r", 1⟩), ("b", ⟨"b", "r", 2⟩)] []
    (by decide) (by decide) (by decide) (by decide)
  exact ⟨h.1.trans (by decide), h.2.2.1, h.2.2.2.1.trans (by decide)⟩

/-! ### Line decomposition for the two line parsers -/

theorem jsSplit_append_cons (sep : Char) (a b : List Char) :
    jsSplit sep (a ++ sep :: b) = jsSplit sep a ++ jsSplit sep b := by
  induction a with
  | nil => simp [jsSplit]
  | cons c a ih =>
    by_cases hc : c = sep
    · simp [jsSplit, hc, ih]
    · simp only [List.cons_append, jsSplit, if_neg hc, List.append_eq]
      cases h : jsSplit sep a with
      | nil => exact absurd h (jsSplit_ne_nil sep a)
      | cons p ps =>
        rw [ih, h]
        simp [consHead]

theorem jsSplit_not_mem {sep : Char} {s : List Char} (h : sep ∉ s) :
    jsSplit sep s = [s] := by
  induction s with
  | nil => simp [jsSplit]
  | cons c cs ih =>
    have hc : c ≠ sep := fun he => h (he ▸ List.mem_cons_self c cs)
    have hcs : sep ∉ cs := fun hm => h (List.mem_cons_of_mem c hm)
    simp [jsSplit, hc, ih hcs, consHead]

theorem joinSep_jsSplit (sep : Char) (s : List Char) :
    joinSep sep (jsSplit sep s) = s := by
  induction s with
  | nil => simp [jsSplit, joinSep]
  | cons c cs ih =>
    by_cases hc : c = sep
    · cases h : jsSplit sep cs with
      | nil => exact absurd h (jsSplit_ne_nil sep cs)
      | cons x xs =>
        rw [h] at ih
        simp [jsSplit, hc, h, joinSep, ih]
    · cases h : jsSplit sep cs with
      | nil => exact absurd h (jsSplit_ne_nil sep cs)
      | cons x xs =>
        rw [h] at ih
        cases xs with
        | nil =>
          simp only [joinSep] at ih
          simp [jsSplit, hc, h, consHead, joinSep, ih]
        | cons y ys =>
          simp only [joinSep] at ih
          simp only [jsSplit, if_neg hc, h, consHead, joinSep]
          rw [List.cons_append, ih]

theorem trimChars_eq_nil_iff (s : List Char) :
    trimChars s = [] ↔ ∀ c ∈ s, isJsSpace c = true := by
  unfold trimChars
  rw [List.reverse_eq_nil_iff, List.dropWhile_eq_nil_iff]
  constructor
  · intro h c hc
    by_cases hcp : isJsSpace c = true
    · exact hcp
    · exfalso
      have hsplit : s.takeWhile isJsSpace ++ s.dropWhile isJsSpace = s :=
      List.takeWhile_append_dropWhile isJsSpace s
      rw [← hsplit] at hc
      rcases List.mem_append.mp hc with h1 | h1
      · exact hcp (List.mem_takeWhile_imp h1)
      · exact hcp (h c (List.mem_reverse.mpr h1))
  · intro h x hx
    exact h x ((List.dropWhile_sublist isJsSpace).subset (List.mem_reverse.mp hx))

theorem trimChars_line_ne_nil (p f content : List Char) :
    trimChars (p ++ ':' :: f ++ ':' :: content) ≠ [] := by
  intro h
  have hm : ':' ∈ p ++ ':' :: f ++ ':' :: content := by simp
  exact absurd ((trimChars_eq_nil_iff _).mp h ':' hm) (by decide)

theorem jsSplit_line_decomp (p f content : List Char) (hpc : ':' ∉ p) (hfc : ':' ∉ f) :
    jsSplit ':' (p ++ ':' :: f ++ ':' :: content) = p :: f :: jsSplit ':' content := by
  rw [jsSplit_append_cons ':' (p ++ ':' :: f) content,
    jsSplit_append_cons ':' p f, jsSplit_not_mem hpc, jsSplit_not_mem hfc]
  rfl

theorem parseDataLine_decomp (dir p f content : List Char)
    (hpc : ':' ∉ p) (hfc : ':' ∉ f) :
    parseDataLine dir (p ++ ':' :: f ++ ':' :: content) =
      (if p = [] ∨ f = [] then none
        else if MAX_DESC_LENGTH < (trimChars content).length then none
        else some { filePath := resolvePosix dir p
                    fileName := basenamePosix p
                    lineNumber := parseIntJs f
                    content := trimChars content
                    relativePath := relativePosix dir (resolvePosix dir p) }) := by
  unfold parseDataLine
  rw [if_neg (trimChars_line_ne_nil p f content)]
  simp only [jsSplit_line_decomp p f content hpc hfc]
  simp [joinSep_jsSplit]

theorem fetchItemLine_decomp (dir p f content : List Char)
    (hpc : ':' ∉ p) (hfc : ':' ∉ f) :
    fetchItemLine dir (p ++ ':' :: f ++ ':' :: content) =
      (if (trimChars content).length < MAX_DESC_LENGTH ∧ numTruthy (jsNumber f) then
        some { label := (jsSplit '/' p).getLastD [] ++ (" : ".toList)
                 ++ (toString ((jsNumber f).getD 0)).toList
               description := trimChars content
               detail := dir ++ p.drop 1
               num := jsNumber f }
       else none) := by
  unfold fetchItemLine
  simp only [jsSplit_line_decomp p f content hpc hfc]
  simp [joinSep_jsSplit, jsNumberOpt]

/-! ### Digits and the numeric parsers -/

theorem digit_not_space {c : Char} (h : isDigitChar c = true) : isJsSpace c = false := by
  by_contra hb
  have hsp : isJsSpace c = true := by
    cases hiss : isJsSpace c
    · exact absurd hiss hb
    · rfl
  simp only [isJsSpace, Bool.or_eq_true, decide_eq_true_eq] at hsp
  rcases hsp with ((((((h1 | h1) | h1) | h1) | h1) | h1) | h1) <;> subst h1 <;>
    exact absurd h (by decide)

theorem takeWhile_all {α : Type} {p : α → Bool} :
    ∀ {l : List α}, (∀ c ∈ l, p c = true) → l.takeWhile p = l := by
  intro l
  induction l with
  | nil => intro _; rfl
  | cons a l ih =>
    intro h
    rw [List.takeWhile_cons_of_pos (h a (List.mem_cons_self a l))]
    rw [ih (fun c hc => h c (List.mem_cons_of_mem a hc))]

theorem parseIntJs_digits (ds : List Char) (hds : ds ≠ [])
    (hdig : ∀ c ∈ ds, isDigitChar c = true) :
    parseIntJs ds = some ((digitsVal ds : Int)) := by
  cases ds with
  | nil => exact absurd rfl hds
  | cons d ds' =>
    have hd : isDigitChar d = true := hdig d (List.mem_cons_self d ds')
    have hdrop : (d :: ds').dropWhile isJsSpace = d :: ds' :=
      List.dropWhile_cons_of_neg (by simp [digit_not_space hd])
    have htake : (d :: ds').takeWhile isDigitChar = d :: ds' := takeWhile_all hdig
    simp only [parseIntJs, hdrop]
    split
    · next rest heq =>
      exfalso
      have hd' : d = '-' := (List.cons.injEq _ _ _ _ ▸ heq).1
      exact absurd (hd' ▸ hd) (by decide)
    · next rest heq =>
      exfalso
      have hd' : d = '+' := (List.cons.injEq _ _ _ _ ▸ heq).1
      exact absurd (hd' ▸ hd) (by decide)
    · rw [htake, if_neg (by simp)]

/-! ### C4, C5, C6 -/

/-- C6: for every well-formed content-search line
`<path>:<digits>:<content>` with a non-empty colon-free path, an all-digit
line-number field of value `n ≥ 1`, and trimmed content shorter than the
cap, the webview data-handler parser emits a record whose `lineNumber` is
`n`, whose `content` is the remaining segments rejoined with `:` and
trimmed, and whose `filePath` is the raw path resolved against the owning
search directory (`relativePath` being taken relative to the same
directory). -/
theorem parseDataLine_wellformed (dir p ds content : List Char)
    (hp : p ≠ []) (hpc : ':' ∉ p) (hds : ds ≠ [])
    (hdig : ∀ c ∈ ds, isDigitChar c = true) (_hn : 1 ≤ digitsVal ds)
    (hlen : (trimChars content).length < MAX_DESC_LENGTH) :
    parseDataLine dir (p ++ ':' :: ds ++ ':' :: content)
      = some { filePath := resolvePosix dir p
               fileName := basenamePosix p
               lineNumber := some ((digitsVal ds : Int))
               content := trimChars content
               relativePath := relativePosix dir (resolvePosix dir p) } := by
  have hdsc : ':' ∉ ds := fun hm => absurd (hdig ':' hm) (by decide)
  rw [parseDataLine_decomp dir p ds content hpc hdsc]
  rw [if_neg (by simp [hp, hds])]
  rw [if_neg (by omega)]
  rw [parseIntJs_digits ds hds hdig]

/-- Witness for C6 at the line `x.txt:3:foo bar` under directory `/a`. -/
theorem parseDataLine_wellformed_witness :
    parseDataLine ("/a".toList)
        (("x.txt".toList) ++ ':' :: ("3".toList) ++ ':' :: ("foo bar".toList))
      = some ⟨"/a/x.txt".toList, "x.txt".toList, some 3, "foo bar".toList, "x.txt".toList⟩ := by
  have h := parseDataLine_wellformed ("/a".toList) ("x.txt".toList) ("3".toList)
    ("foo bar".toList) (by decide) (by decide) (by decide) (by decide) (by decide) (by decide)
  exact h.trans (by decide)

/-- C4 counterexample: the spec's own example line
`/a/x.txt:notanumber:text` is NOT dropped by the webview data-handler
parser — the code only checks that the second field is non-empty, so it
emits a record whose `lineNumber` is `parseInt("notanumber") = NaN`
(modelled as `none`). -/
theorem parse_nonnumeric_emitted_cex :
    parseDataLine ("/a".toList) ("/a/x.txt:notanumber:text".toList)
      = some ⟨"/a/x.txt".toList, "x.txt".toList, none, "text".toList, "x.txt".toList⟩ := by
  decide

/-- C4 (amended): the two line parsers disagree on a non-numeric second
field.  The quick-pick `fetchItems` pipeline drops every line whose
second field has `Number(field) = NaN` (its `!!num` filter), while the
webview data-handler parser keeps such a line whenever the field is
merely non-empty, emitting a record whose `lineNumber` is the `NaN`
result of `parseInt`; in both parsers the scan itself continues —
dropping or emitting a line never aborts anything. -/
theorem parse_nonnumeric_behavior (dir p f content : List Char)
    (hpc : ':' ∉ p) (hfc : ':' ∉ f) (hnan : jsNumber f = none) :
    fetchItemLine dir (p ++ ':' :: f ++ ':' :: content) = none
    ∧ (p ≠ [] → f ≠ [] → (trimChars content).length ≤ MAX_DESC_LENGTH →
        parseDataLine dir (p ++ ':' :: f ++ ':' :: content)
          = some { filePath := resolvePosix dir p
                   fileName := basenamePosix p
                   lineNumber := parseIntJs f
                   content := trimChars content
                   relativePath := relativePosix dir (resolvePosix dir p) }) := by
  constructor
  · rw [fetchItemLine_decomp dir p f content hpc hfc]
    rw [if_neg]
    intro hand
    exact absurd (hnan ▸ hand.2) (by decide)
  · intro hp hf hlen
    rw [parseDataLine_decomp dir p f content hpc hfc]
    rw [if_neg (by simp [hp, hf])]
    rw [if_neg (by omega)]

/-- Witness for C4's amended theorem at the spec's example line. -/
theorem parse_nonnumeric_behavior_witness :
    fetchItemLine ("/a".toList)
        (("/a/x.txt".toList) ++ ':' :: ("notanumber".toList) ++ ':' :: ("text".toList)) = none
    ∧ parseDataLine ("/a".toList)
        (("/a/x.txt".toList) ++ ':' :: ("notanumber".toList) ++ ':' :: ("text".toList))
      = some ⟨"/a/x.txt".toList, "x.txt".toList, none, "text".toList, "x.txt".toList⟩ := by
  have h := parse_nonnumeric_behavior ("/a".toList) ("/a/x.txt".toList)
    ("notanumber".toList) ("text".toList) (by decide) (by decide) (by decide)
  exact ⟨h.1, (h.2 (by decide) (by decide) (by decide)).trans (by decide)⟩

/-- C5 counterexample: a line whose trimmed content is exactly 1000
characters long is NOT dropped by the webview data-handler parser — the
code uses `content.length > MAX_DESC_LENGTH`, so the boundary case is
kept and a record is emitted. -/
theorem trimChars_replicate (n : Nat) (c : Char) (h : isJsSpace c = false) :
    trimChars (List.replicate n c) = List.replicate n c := by
  have hdw : ∀ m, (List.replicate m c).dropWhile isJsSpace = List.replicate m c := by
    intro m
    cases m with
    | zero => rfl
    | succ m =>
      rw [List.replicate_succ]
      exact List.dropWhile_cons_of_neg (by simp [h])
  unfold trimChars
  rw [hdw, List.reverse_replicate, hdw, List.reverse_replicate]

theorem parse_len1000_emitted_cex :
    (trimChars (List.replicate 1000 'a')).length = 1000
    ∧ (parseDataLine ("/a".toList)
        (("x.txt".toList) ++ ':' :: ("3".toList) ++ ':' :: List.replicate 1000 'a')).isSome
      = true := by
  have htrim := trimChars_replicate 1000 'a' (by decide)
  constructor
  · rw [htrim, List.length_replicate]
  · rw [parseDataLine_decomp _ _ _ _ (by decide) (by decide)]
    rw [if_neg (by decide)]
    rw [if_neg (by rw [htrim, List.length_replicate]; decide)]
    rfl

/-- C5 (amended): the two parsers use different content-length cutoffs.
The webview data-handler parser returns `none` when the first field is
empty or the trimmed content is strictly longer than `MAX_DESC_LENGTH`
(1000) — so content of exactly 1000 characters IS emitted — while the
quick-pick `fetchItems` pipeline drops every line whose trimmed
description has length at least 1000. -/
theorem parse_length_filter_behavior (dir p f content : List Char)
    (hpc : ':' ∉ p) (hfc : ':' ∉ f) (hfne : f ≠ []) :
    (MAX_DESC_LENGTH < (trimChars content).length →
        parseDataLine dir (p ++ ':' :: f ++ ':' :: content) = none)
    ∧ (MAX_DESC_LENGTH ≤ (trimChars content).length →
        fetchItemLine dir (p ++ ':' :: f ++ ':' :: content) = none)
    ∧ (p = [] → parseDataLine dir (p ++ ':' :: f ++ ':' :: content) = none)
    ∧ (p ≠ [] → (trimChars content).length ≤ MAX_DESC_LENGTH →
        (parseDataLine dir (p ++ ':' :: f ++ ':' :: content)).isSome = true) := by
  refine ⟨?_, ?_, ?_, ?_⟩
  · intro hlen
    rw [parseDataLine_decomp dir p f content hpc hfc]
    by_cases hp : p = [] ∨ f = []
    · rw [if_pos hp]
    · rw [if_neg hp, if_pos hlen]
  · intro hlen
    rw [fetchItemLine_decomp dir p f content hpc hfc]
    rw [if_neg]
    intro hand
    exact absurd hand.1 (by omega)
  · intro hp
    rw [parseDataLine_decomp dir p f content hpc hfc]
    rw [if_pos (Or.inl hp)]
  · intro hp hlen
    rw [parseDataLine_decomp dir p f content hpc hfc]
    rw [if_neg (by simp [hp, hfne]), if_neg (by omega)]
    rfl

/-- Witness for C5's amended theorem at content of 1001 characters,
dropped by both parsers. -/
theorem parse_length_filter_behavior_witness :
    parseDataLine ("/a".toList)
        (("x.txt".toList) ++ ':' :: ("3".toList) ++ ':' :: List.replicate 1001 'a') = none
    ∧ fetchItemLine ("/a".toList)
        (("x.txt".toList) ++ ':' :: ("3".toList) ++ ':' :: List.replicate 1001 'a') = none := by
  have htrim := trimChars_replicate 1001 'a' (by decide)
  have hgt : MAX_DESC_LENGTH < (trimChars (List.replicate 1001 'a')).length := by
    rw [htrim, List.length_replicate]
    decide
  have h := parse_length_filter_behavior ("/a".toList) ("x.txt".toList) ("3".toList)
    (List.replicate 1001 'a') (by decide) (by decide) (by decide)
  exact ⟨h.1 hgt, h.2.1 (le_of_lt hgt)⟩

/-! ### Path normalization and the relative/resolve round trip -/

theorem normAbsSegs_append (a b : List (List Char)) :
    normAbsSegs (a ++ b) = b.foldl normStep (normAbsSegs a) := by
  simp [normAbsSegs, List.foldl_append]

theorem foldl_normStep_clean (l : List (List Char)) :
    ∀ acc, (∀ x ∈ l, x ≠ [] ∧ x ≠ ['.'] ∧ x ≠ ['.', '.']) →
      l.foldl normStep acc = acc ++ l := by
  induction l with
  | nil => intro acc _; simp
  | cons x l ih =>
    intro acc h
    have hx := h x (List.mem_cons_self x l)
    have hstep : normStep acc x = acc ++ [x] := by
      unfold normStep
      rw [if_neg (by simp [hx.1, hx.2.1]), if_neg hx.2.2]
    rw [List.foldl_cons, hstep, ih _ (fun y hy => h y (List.mem_cons_of_mem x hy))]
    simp

theorem mem_foldl_normStep (l : List (List Char)) :
    ∀ acc x, x ∈ l.foldl normStep acc →
      x ∈ acc ∨ (x ∈ l ∧ x ≠ [] ∧ x ≠ ['.'] ∧ x ≠ ['.', '.']) := by
  induction l with
  | nil => intro acc x hx; exact Or.inl hx
  | cons y l ih =>
    intro acc x hx
    rw [List.foldl_cons] at hx
    rcases ih _ x hx with h1 | h1
    · unfold normStep at h1
      split_ifs at h1 with hy1 hy2
      · exact Or.inl h1
      · exact Or.inl (List.dropLast_subset acc h1)
      · rcases List.mem_append.mp h1 with h2 | h2
        · exact Or.inl h2
        · have hxy : x = y := by simpa using h2
          subst hxy
          obtain ⟨ha, hb⟩ := not_or.mp hy1
          exact Or.inr ⟨List.mem_cons_self x l, ha, hb, hy2⟩
    · exact Or.inr ⟨List.mem_cons_of_mem y h1.1, h1.2⟩

theorem foldl_normStep_dotdot : ∀ (m : Nat) (acc : List (List Char)),
    (List.replicate m (['.', '.'] : List Char)).foldl normStep acc
      = acc.take (acc.length - m)
  | 0, acc => by simp
  | m + 1, acc => by
    rw [List.replicate_succ, List.foldl_cons]
    have hstep : normStep acc ['.', '.'] = acc.dropLast := by
      unfold normStep
      rw [if_neg (by simp), if_pos rfl]
    rw [hstep, foldl_normStep_dotdot m acc.dropLast]
    rw [List.length_dropLast, List.dropLast_eq_take, List.take_take]
    congr 1
    omega

theorem commonLen_le_left : ∀ (a b : List (List Char)), commonLen a b ≤ a.length
  | [], b => by simp [commonLen]
  | a :: as, [] => by simp [commonLen]
  | a :: as, b :: bs => by
    unfold commonLen
    split_ifs with h
    · simpa using Nat.succ_le_succ (commonLen_le_left as bs)
    · simp

theorem commonLen_le_right : ∀ (a b : List (List Char)), commonLen a b ≤ b.length
  | [], b => by simp [commonLen]
  | a :: as, [] => by simp [commonLen]
  | a :: as, b :: bs => by
    unfold commonLen
    split_ifs with h
    · simpa using Nat.succ_le_succ (commonLen_le_right as bs)
    · simp

theorem take_commonLen : ∀ (a b : List (List Char)),
    a.take (commonLen a b) = b.take (commonLen a b)
  | [], b => by simp [commonLen]
  | a :: as, [] => by simp [commonLen]
  | a :: as, b :: bs => by
    unfold commonLen
    split_ifs with h
    · rw [List.take_succ_cons, List.take_succ_cons, h, take_commonLen as bs]
    · simp

theorem mem_jsSplit_not_mem (sep : Char) : ∀ (s : List Char) (x : List Char),
    x ∈ jsSplit sep s → sep ∉ x
  | [], x, hx => by
    simp only [jsSplit, List.mem_singleton] at hx
    subst hx
    simp
  | c :: cs, x, hx => by
    by_cases hc : c = sep
    · simp only [jsSplit, if_pos hc] at hx
      rcases List.mem_cons.mp hx with h1 | h1
      · subst h1; simp
      · exact mem_jsSplit_not_mem sep cs x h1
    · simp only [jsSplit, if_neg hc] at hx
      cases hsp : jsSplit sep cs with
      | nil => exact absurd hsp (jsSplit_ne_nil sep cs)
      | cons p ps =>
        rw [hsp] at hx
        simp only [consHead] at hx
        rcases List.mem_cons.mp hx with h1 | h1
        · subst h1
          intro hmem
          rcases List.mem_cons.mp hmem with h2 | h2
          · exact hc h2.symm
          · exact mem_jsSplit_not_mem sep cs p (hsp ▸ List.mem_cons_self p ps) h2
        · exact mem_jsSplit_not_mem sep cs x (hsp ▸ List.mem_cons_of_mem p h1)

theorem jsSplit_joinSep (sep : Char) : ∀ (L : List (List Char)), L ≠ [] →
    (∀ x ∈ L, sep ∉ x) → jsSplit sep (joinSep sep L) = L
  | [], h, _ => absurd rfl h
  | [x], _, hm => by
    simp only [joinSep]
    exact jsSplit_not_mem (hm x (List.mem_cons_self x []))
  | x :: y :: t, _, hm => by
    simp only [joinSep]
    rw [jsSplit_append_cons, jsSplit_not_mem (hm x (List.mem_cons_self _ _))]
    rw [jsSplit_joinSep sep (y :: t) (by simp) (fun z hz => hm z (List.mem_cons_of_mem x hz))]
    rfl

theorem isAbsolute_cons (c : Char) (t : List Char) (hc : c ≠ '/') :
    isAbsolute (c :: t) = false := by
  unfold isAbsolute
  split
  · next heq =>
    exfalso
    exact hc (List.cons.injEq _ _ _ _ ▸ heq).1
  · rfl

theorem isAbsolute_joinSep (x0 : List Char) (xs : List (List Char))
    (hne : x0 ≠ []) (hns : '/' ∉ x0) :
    isAbsolute (joinSep '/' (x0 :: xs)) = false := by
  obtain ⟨c, x0', hcx⟩ := List.exists_cons_of_ne_nil hne
  subst hcx
  have hc : c ≠ '/' := fun he => hns (he ▸ List.mem_cons_self c x0')
  cases xs with
  | nil => exact isAbsolute_cons c x0' hc
  | cons y ys =>
    show isAbsolute ((c :: x0') ++ '/' :: joinSep '/' (y :: ys)) = false
    rw [List.cons_append]
    exact isAbsolute_cons c _ hc

/-- Re-resolving an already-normalized absolute path made relative to
`dir` reproduces that path: the core of the round-trip property, stated
over the normalized segment list `P`. -/
theorem resolve_relative_normalized (dir : List Char) (P : List (List Char))
    (hP : ∀ x ∈ P, x ≠ [] ∧ x ≠ ['.'] ∧ x ≠ ['.', '.'] ∧ '/' ∉ x) :
    resolvePosix dir (relativePosix dir ('/' :: joinSep '/' P)) = '/' :: joinSep '/' P := by
  have hT : normAbsSegs (jsSplit '/' ('/' :: joinSep '/' P)) = P := by
    have h1 : jsSplit '/' ('/' :: joinSep '/' P) = [] :: jsSplit '/' (joinSep '/' P) := by
      simp [jsSplit]
    have h2 : normAbsSegs ([] :: jsSplit '/' (joinSep '/' P))
        = normAbsSegs (jsSplit '/' (joinSep '/' P)) := by
      simp [normAbsSegs, normStep]
    rw [h1, h2]
    cases hPe : P with
    | nil => simp [joinSep, jsSplit, normAbsSegs, normStep]
    | cons x xs =>
      rw [← hPe]
      rw [jsSplit_joinSep '/' P (by rw [hPe]; simp) (fun y hy => (hP y hy).2.2.2)]
      have h3 := foldl_normStep_clean P []
        (fun y hy => ⟨(hP y hy).1, (hP y hy).2.1, (hP y hy).2.2.1⟩)
      simpa [normAbsSegs] using h3
  have hrel : relativePosix dir ('/' :: joinSep '/' P)
      = joinSep '/' (List.replicate ((normAbsSegs (jsSplit '/' dir)).length
            - commonLen (normAbsSegs (jsSplit '/' dir)) P) ['.', '.']
          ++ P.drop (commonLen (normAbsSegs (jsSplit '/' dir)) P)) := by
    unfold relativePosix
    rw [hT]
  rw [hrel]
  generalize hF : normAbsSegs (jsSplit '/' dir) = F
  have hkF : commonLen F P ≤ F.length := commonLen_le_left F P
  have hkP : commonLen F P ≤ P.length := commonLen_le_right F P
  have htk : F.take (commonLen F P) = P.take (commonLen F P) := take_commonLen F P
  by_cases hR : List.replicate (F.length - commonLen F P) (['.', '.'] : List Char)
      ++ P.drop (commonLen F P) = []
  · obtain ⟨hr1, hr2⟩ := List.append_eq_nil.mp hR
    have hm0 : F.length - commonLen F P = 0 := (List.replicate_eq_nil_iff _).mp hr1
    have hPk : P.length ≤ commonLen F P := List.drop_eq_nil_iff.mp hr2
    have hFP : F = P := by
      have h3 : commonLen F P = F.length := by omega
      have h4 : commonLen F P = P.length := by omega
      calc F = F.take (commonLen F P) := by rw [h3, List.take_length]
        _ = P.take (commonLen F P) := htk
        _ = P := by rw [h4, List.take_length]
    rw [hR]
    have hres : resolvePosix dir []
        = '/' :: joinSep '/' (normAbsSegs (jsSplit '/' (dir ++ '/' :: []))) := rfl
    show resolvePosix dir [] = '/' :: joinSep '/' P
    rw [hres, jsSplit_append_cons]
    rw [show jsSplit '/' ([] : List Char) = [[]] from rfl]
    rw [normAbsSegs_append, hF]
    rw [show ([[]] : List (List Char)).foldl normStep F = normStep F [] from rfl]
    rw [show normStep F [] = F from by unfold normStep; rw [if_pos (Or.inl rfl)]]
    rw [hFP]
  · have hnos : ∀ x ∈ List.replicate (F.length - commonLen F P) (['.', '.'] : List Char)
        ++ P.drop (commonLen F P), '/' ∉ x := by
      intro x hx
      rcases List.mem_append.mp hx with h1 | h1
      · rw [(List.mem_replicate.mp h1).2]
        simp
      · exact (hP x (List.mem_of_mem_drop h1)).2.2.2
    have hsplit := jsSplit_joinSep '/' _ hR hnos
    obtain ⟨x0, xs, hx0⟩ := List.exists_cons_of_ne_nil hR
    have hx0mem : x0 ∈ List.replicate (F.length - commonLen F P) (['.', '.'] : List Char)
        ++ P.drop (commonLen F P) := hx0 ▸ List.mem_cons_self x0 xs
    have hx0ne : x0 ≠ [] := by
      rcases List.mem_append.mp hx0mem with h1 | h1
      · rw [(List.mem_replicate.mp h1).2]
        simp
      · exact (hP x0 (List.mem_of_mem_drop h1)).1
    have habs : isAbsolute (joinSep '/' (List.replicate (F.length - commonLen F P)
        (['.', '.'] : List Char) ++ P.drop (commonLen F P))) = false := by
      rw [hx0]
      exact isAbsolute_joinSep x0 xs hx0ne (hnos x0 hx0mem)
    have hres : resolvePosix dir (joinSep '/' (List.replicate (F.length - commonLen F P)
        (['.', '.'] : List Char) ++ P.drop (commonLen F P)))
        = '/' :: joinSep '/' (normAbsSegs (jsSplit '/' (dir ++ '/' ::
            joinSep '/' (List.replicate (F.length - commonLen F P)
              (['.', '.'] : List Char) ++ P.drop (commonLen F P))))) := by
      unfold resolvePosix
      rw [if_neg (by simp [habs])]
    rw [hres]
    rw [jsSplit_append_cons, hsplit, normAbsSegs_append, hF, List.foldl_append]
    rw [foldl_normStep_dotdot]
    rw [show F.length - (F.length - commonLen F P) = commonLen F P from by omega]
    rw [htk]
    rw [foldl_normStep_clean (P.drop (commonLen F P)) (P.take (commonLen F P))
      (fun y hy => ⟨(hP y (List.mem_of_mem_drop hy)).1, (hP y (List.mem_of_mem_drop hy)).2.1,
        (hP y (List.mem_of_mem_drop hy)).2.2.1⟩)]
    rw [List.take_append_drop]

/-- C8: round trip of every emitted record's paths — for every absolute
search directory and every raw path from the tool output, resolving the
record's `relativePath` (computed as `relative(dir, resolve(dir, raw))`)
against the same directory reproduces the record's absolute `filePath`
(`resolve(dir, raw)`). -/
theorem relative_resolve_roundtrip (dir raw : List Char) (_h : isAbsolute dir = true) :
    resolvePosix dir (relativePosix dir (resolvePosix dir raw)) = resolvePosix dir raw := by
  have hform : resolvePosix dir raw
      = '/' :: joinSep '/' (normAbsSegs (jsSplit '/'
          (if isAbsolute raw then raw else dir ++ '/' :: raw))) := rfl
  rw [hform]
  apply resolve_relative_normalized
  intro x hx
  have h1 := mem_foldl_normStep _ [] x hx
  rcases h1 with h1 | h1
  · exact absurd h1 (List.not_mem_nil x)
  · exact ⟨h1.2.1, h1.2.2.1, h1.2.2.2, mem_jsSplit_not_mem '/' _ x h1.1⟩

/-- Witness for C8 at directory `/a/b` and the relative raw path
`../x.txt`, whose resolution is `/a/x.txt` and whose relative path is
`../x.txt` again. -/
theorem relative_resolve_roundtrip_witness :
    isAbsolute ("/a/b".toList) = true
    ∧ resolvePosix ("/a/b".toList)
        (relativePosix ("/a/b".toList) (resolvePosix ("/a/b".toList) ("../x.txt".toList)))
      = resolvePosix ("/a/b".toList) ("../x.txt".toList) :=
  ⟨by decide, relative_resolve_roundtrip ("/a/b".toList) ("../x.txt".toList) (by decide)⟩

end LiveGrep
